import Mathlib

/-!
Verification of the loose XML matcher (src/main.cpp).

The program fingerprints an XML tree with a fixed-width integer key and
declares two documents equivalent when the keys of their root elements agree.
Keys are `std::size_t` values (64-bit on the target platform); we model them
as natural numbers and take the arithmetic modulo `2 ^ 64` exactly where the
C++ unsigned arithmetic wraps.  The external text-hash
(`std::hash<std::string>`) is an unspecified deterministic mixing function,
so every development below is parametric in a function `hS : String → Key`.
-/

/-- Keys are `std::size_t` values: fixed-width unsigned integers, modelled as
naturals that the combiner keeps below `2 ^ 64`. -/
abbrev Key := Nat

/-- Width of the modulus of `std::size_t` arithmetic on the target platform. -/
def keyMod : Nat := 2 ^ 64

/-- Models `std::hash<std::size_t>` (the instantiation `GetHasher<Key>` used by
`combineKeysUniquelyImpl` on already-computed keys): both libstdc++ and libc++
implement the hash of an unsigned integral type as the identity function. -/
def hashKey (k : Key) : Key := k

/-- Embedding of `detail::combineKeysUniquelyImpl`: the classic hash-combine
step `lhsKey ^= hash(rhsKey) + 0x9e3779b9 + (lhsKey << 6) + (lhsKey >> 2)`,
with the `std::size_t` additions and left shift wrapping modulo `2 ^ 64`
(a single reduction of the sum is equivalent to reducing every
intermediate). -/
def combineKeysUniquelyImpl (lhsKey rhsKey : Key) : Key :=
  lhsKey ^^^ ((hashKey rhsKey + 0x9e3779b9 + (lhsKey <<< 6) + (lhsKey >>> 2)) % keyMod)

/-- Embedding of `keys::combineKeysUniquely`: a zero-initialised accumulator
folded left-to-right over the arguments by `combineKeysUniquelyImpl` (the C++
comma-fold `(impl(result, keys), ...)` evaluates the pack in order). -/
def combineKeysUniquely (keys : List Key) : Key :=
  keys.foldl combineKeysUniquelyImpl 0

/-- Embedding of the non-empty instantiations of `keys::combineKeysLoosely`:
the unary right fold `(keys ^ ...)` over arguments `k :: ks`. -/
def combineKeysLooselyNE (k : Key) : List Key → Key
  | [] => k
  | k' :: ks => k ^^^ combineKeysLooselyNE k' ks

/-- Embedding of `keys::combineKeysLoosely` for an arbitrary argument pack.
The C++ body is the unary fold `(keys ^ ...)`; for an empty pack that fold is
ill-formed (only `&&`, `||` and `,` have an empty-pack value), so the
zero-argument call has no result, modelled as `none`. -/
def combineKeysLoosely : List Key → Option Key
  | [] => none
  | k :: ks => some (combineKeysLooselyNE k ks)

/-- Plain accumulated XOR of a list of keys, the reference combination the
spec describes for the loose combiner. -/
def xorKey (keys : List Key) : Key :=
  keys.foldr (fun a b => a ^^^ b) 0

/-- Read-only view of one XML attribute (pugixml `xml_attribute`): a
name/value pair of strings. -/
structure XMLAttribute where
  name : String
  value : String
deriving DecidableEq

/-- Read-only view of one XML node as the matcher consumes it (pugixml
`xml_node`): the tag name `node.name()`, the direct text `node.child_value()`,
the attribute sequence in document order, and the child sequence in document
order. -/
structure XMLNode where
  name : String
  childValue : String
  attributes : List XMLAttribute
  children : List XMLNode

/-- The null `xml_node` handle: pugixml null handles read as empty name and
value, no attributes and no children. -/
def nullNode : XMLNode := XMLNode.mk "" "" [] []

/-- A parsed document (pugixml `xml_document`): `document_element()` is the
root element when one exists and the null handle otherwise. -/
structure XMLDocument where
  documentElement : Option XMLNode

/-- The node handle `document_element()` returns: the root element, or the
null node when the document has none. -/
def rootHandle (doc : XMLDocument) : XMLNode :=
  doc.documentElement.getD nullNode

/-- Embedding of `detail::computeAttributesKey`: starting from a zero key,
fold `combineKeysLoosely(result, combineKeysUniquely(hash(name), hash(value)))`
over the node's attributes in document order. -/
def computeAttributesKey (hS : String → Key) (node : XMLNode) : Key :=
  node.attributes.foldl
    (fun result attr =>
      combineKeysLooselyNE result [combineKeysUniquely [hS attr.name, hS attr.value]])
    0

mutual

/-- Embedding of `detail::computeNodeKey`: combine uniquely the hashed tag
name, the hashed direct text, the attributes key and the accumulated children
key. -/
def computeNodeKey (hS : String → Key) : XMLNode → Key
  | XMLNode.mk name childValue attributes children =>
      combineKeysUniquely
        [hS name, hS childValue,
         computeAttributesKey hS (XMLNode.mk name childValue attributes children),
         computeChildrenKey hS 0 children]

/-- Embedding of the `std::accumulate` loop inside `computeNodeKey`: a left
fold that loosely combines the running key with each child's node key. -/
def computeChildrenKey (hS : String → Key) (partialKey : Key) : List XMLNode → Key
  | [] => partialKey
  | child :: rest =>
      computeChildrenKey hS (combineKeysLooselyNE partialKey [computeNodeKey hS child]) rest

end

/-- Embedding of `matcher::matchXMLDocumentsLoosely`: compare the node keys of
the two documents' root handles. -/
def matchXMLDocumentsLoosely (hS : String → Key) (lhsDocument rhsDocument : XMLDocument) : Bool :=
  computeNodeKey hS (rootHandle lhsDocument) == computeNodeKey hS (rootHandle rhsDocument)

mutual

/-- Spec-side relation: the two subtrees are isomorphic up to a permutation of
attributes and a permutation of sibling children, with identical tag names,
text values and attribute name/value pairs at every level. -/
def LooseIso : XMLNode → XMLNode → Prop
  | XMLNode.mk name childValue attributes children, n2 =>
      name = n2.name ∧ childValue = n2.childValue ∧
      attributes.Perm n2.attributes ∧
      ∃ cs, n2.children.Perm cs ∧ LooseIsoChildren children cs

/-- Pointwise `LooseIso` between two child lists of equal length. -/
def LooseIsoChildren : List XMLNode → List XMLNode → Prop
  | [], [] => True
  | c1 :: r1, c2 :: r2 => LooseIso c1 c2 ∧ LooseIsoChildren r1 r2
  | _, _ => False

end

/-- The accumulator update exactly as the spec words it, with no re-hash of
the argument key: `acc = acc XOR (key + 0x9e3779b9 + (acc << 6) + (acc >> 2))`
in fixed-width arithmetic.  Spec-side definition, kept to compare with the
source embedding `combineKeysUniquely`. -/
def combineUniquelySpec (keys : List Key) : Key :=
  keys.foldl (fun acc key => acc ^^^ ((key + 0x9e3779b9 + (acc <<< 6) + (acc >>> 2)) % keyMod)) 0

theorem xorKey_nil : xorKey [] = 0 := rfl

theorem xorKey_cons (k : Key) (ks : List Key) : xorKey (k :: ks) = k ^^^ xorKey ks := rfl

theorem combineKeysLooselyNE_eq_xorKey (k : Key) (ks : List Key) :
    combineKeysLooselyNE k ks = k ^^^ xorKey ks := by
  induction ks generalizing k with
  | nil => simp [combineKeysLooselyNE, xorKey_nil]
  | cons k' ks ih =>
      rw [combineKeysLooselyNE, ih, xorKey_cons]

theorem xorKey_perm {l1 l2 : List Key} (h : l1.Perm l2) : xorKey l1 = xorKey l2 := by
  induction h with
  | nil => rfl
  | cons x _ ih => rw [xorKey_cons, xorKey_cons, ih]
  | swap x y l =>
      rw [xorKey_cons, xorKey_cons, xorKey_cons, xorKey_cons,
          ← Nat.xor_assoc, ← Nat.xor_assoc, Nat.xor_comm y x]
  | trans _ _ ih1 ih2 => rw [ih1, ih2]

theorem xorKey_append (l1 l2 : List Key) : xorKey (l1 ++ l2) = xorKey l1 ^^^ xorKey l2 := by
  induction l1 with
  | nil => simp [xorKey_nil]
  | cons k ks ih => rw [List.cons_append, xorKey_cons, xorKey_cons, ih, Nat.xor_assoc]

theorem xorKey_replicate_two_mul (m : Nat) (c : Key) :
    xorKey (List.replicate (2 * m) c) = 0 := by
  induction m with
  | zero => rfl
  | succ m ih =>
      have h : 2 * (m + 1) = (2 * m) + 1 + 1 := by omega
      rw [h, List.replicate_succ, List.replicate_succ, xorKey_cons, xorKey_cons, ih,
          Nat.xor_zero, Nat.xor_self]

theorem foldl_xorStep_eq {α : Type} (f : α → Key) (l : List α) (a : Key) :
    l.foldl (fun result x => combineKeysLooselyNE result [f x]) a = a ^^^ xorKey (l.map f) := by
  induction l generalizing a with
  | nil => simp [xorKey_nil]
  | cons x xs ih =>
      rw [List.foldl_cons, ih, List.map_cons, xorKey_cons, combineKeysLooselyNE,
          combineKeysLooselyNE, Nat.xor_assoc]

theorem computeAttributesKey_eq (hS : String → Key) (node : XMLNode) :
    computeAttributesKey hS node =
      xorKey (node.attributes.map
        (fun attr => combineKeysUniquely [hS attr.name, hS attr.value])) := by
  rw [computeAttributesKey, foldl_xorStep_eq, Nat.zero_xor]

theorem computeChildrenKey_eq (hS : String → Key) (a : Key) (cs : List XMLNode) :
    computeChildrenKey hS a cs = a ^^^ xorKey (cs.map (computeNodeKey hS)) := by
  induction cs generalizing a with
  | nil => simp [computeChildrenKey, xorKey_nil]
  | cons c rest ih =>
      rw [computeChildrenKey, ih, List.map_cons, xorKey_cons, combineKeysLooselyNE,
          combineKeysLooselyNE, Nat.xor_assoc]
theorem looseIsoChildren_map_key (hS : String → Key) :
    ∀ (l1 l2 : List XMLNode), LooseIsoChildren l1 l2 →
      (∀ c1 ∈ l1, ∀ c2, LooseIso c1 c2 → computeNodeKey hS c1 = computeNodeKey hS c2) →
      l1.map (computeNodeKey hS) = l2.map (computeNodeKey hS) := by
  intro l1
  induction l1 with
  | nil =>
      intro l2 h _
      cases l2 with
      | nil => rfl
      | cons c2 r2 => simp [LooseIsoChildren] at h
  | cons c1 r1 ih =>
      intro l2 h hrec
      cases l2 with
      | nil => simp [LooseIsoChildren] at h
      | cons c2 r2 =>
          rw [LooseIsoChildren] at h
          obtain ⟨h1, h2⟩ := h
          rw [List.map_cons, List.map_cons,
              hrec c1 (List.mem_cons_self _ _) c2 h1,
              ih r2 h2 (fun c hc d hd => hrec c (List.mem_cons_of_mem _ hc) d hd)]

theorem nodeKey_eq_of_looseIso_fuel (hS : String → Key) :
    ∀ (fuel : Nat) (n1 n2 : XMLNode), sizeOf n1 ≤ fuel → LooseIso n1 n2 →
      computeNodeKey hS n1 = computeNodeKey hS n2 := by
  intro fuel
  induction fuel with
  | zero =>
      intro n1 n2 hsize _
      obtain ⟨na, ta, aa, ca⟩ := n1
      simp [XMLNode.mk.sizeOf_spec] at hsize
  | succ fuel ih =>
      intro n1 n2 hsize hiso
      obtain ⟨na, ta, aa, ca⟩ := n1
      obtain ⟨nb, tb, ab, cb⟩ := n2
      rw [LooseIso] at hiso
      obtain ⟨hn, ht, hattr, cs, hperm, hch⟩ := hiso
      dsimp only at hn ht hattr hperm
      have hsizes : sizeOf ca ≤ fuel := by
        rw [XMLNode.mk.sizeOf_spec] at hsize
        omega
      have hmap : ca.map (computeNodeKey hS) = cs.map (computeNodeKey hS) :=
        looseIsoChildren_map_key hS ca cs hch
          (fun c hc d hd =>
            ih c d (by have := List.sizeOf_lt_of_mem hc; omega) hd)
      subst hn
      subst ht
      rw [computeNodeKey, computeNodeKey]
      have hattrkey :
          computeAttributesKey hS (XMLNode.mk na ta aa ca) =
            computeAttributesKey hS (XMLNode.mk na ta ab cb) := by
        rw [computeAttributesKey_eq, computeAttributesKey_eq]
        exact xorKey_perm (List.Perm.map _ hattr)
      have hchildkey : computeChildrenKey hS 0 ca = computeChildrenKey hS 0 cb := by
        rw [computeChildrenKey_eq, computeChildrenKey_eq, hmap,
            xorKey_perm (List.Perm.map (computeNodeKey hS) hperm)]
      rw [hattrkey, hchildkey]

theorem nodeKey_eq_of_looseIso (hS : String → Key) (n1 n2 : XMLNode) (h : LooseIso n1 n2) :
    computeNodeKey hS n1 = computeNodeKey hS n2 :=
  nodeKey_eq_of_looseIso_fuel hS (sizeOf n1) n1 n2 (Nat.le_refl _) h

theorem looseIsoChildren_of_forall :
    ∀ l : List XMLNode, (∀ c ∈ l, LooseIso c c) → LooseIsoChildren l l := by
  intro l
  induction l with
  | nil => intro _; rw [LooseIsoChildren]; trivial
  | cons c r ih =>
      intro h
      rw [LooseIsoChildren]
      exact ⟨h c (List.mem_cons_self _ _), ih (fun d hd => h d (List.mem_cons_of_mem _ hd))⟩

theorem looseIso_refl_fuel : ∀ (fuel : Nat) (n : XMLNode), sizeOf n ≤ fuel → LooseIso n n := by
  intro fuel
  induction fuel with
  | zero =>
      intro n h
      obtain ⟨na, ta, aa, ca⟩ := n
      simp [XMLNode.mk.sizeOf_spec] at h
  | succ fuel ih =>
      intro n h
      obtain ⟨na, ta, aa, ca⟩ := n
      rw [XMLNode.mk.sizeOf_spec] at h
      rw [LooseIso]
      refine ⟨rfl, rfl, List.Perm.refl _, ⟨ca, List.Perm.refl _, ?_⟩⟩
      exact looseIsoChildren_of_forall ca
        (fun c hc => ih c (by have := List.sizeOf_lt_of_mem hc; omega))

theorem looseIso_refl (n : XMLNode) : LooseIso n n :=
  looseIso_refl_fuel (sizeOf n) n (Nat.le_refl _)

theorem combineKeysLoosely_cons (k : Key) (ks : List Key) :
    combineKeysLoosely (k :: ks) = some (xorKey (k :: ks)) := by
  rw [combineKeysLoosely, combineKeysLooselyNE_eq_xorKey, xorKey_cons]

theorem computeNodeKey_children_xor_congr (hS : String → Key) (name childValue : String)
    (attrs : List XMLAttribute) (cs cs' : List XMLNode)
    (h : xorKey (cs.map (computeNodeKey hS)) = xorKey (cs'.map (computeNodeKey hS))) :
    computeNodeKey hS (XMLNode.mk name childValue attrs cs) =
      computeNodeKey hS (XMLNode.mk name childValue attrs cs') := by
  rw [computeNodeKey, computeNodeKey, computeChildrenKey_eq, computeChildrenKey_eq, h,
      computeAttributesKey, computeAttributesKey]

/-- Claim C1: whenever the two root subtrees are isomorphic up to a
permutation of attributes and of sibling children, with identical tag names,
text values and attribute name/value pairs at every level,
`matchXMLDocumentsLoosely` returns `true`; and the matcher is exactly the
test comparing the node keys of the two roots. -/
theorem matchXMLDocumentsLoosely_correct (hS : String → Key) (docA docB : XMLDocument) :
    (LooseIso (rootHandle docA) (rootHandle docB) →
        matchXMLDocumentsLoosely hS docA docB = true) ∧
    matchXMLDocumentsLoosely hS docA docB =
      (computeNodeKey hS (rootHandle docA) == computeNodeKey hS (rootHandle docB)) := by
  constructor
  · intro hiso
    rw [matchXMLDocumentsLoosely, nodeKey_eq_of_looseIso hS _ _ hiso]
    exact beq_self_eq_true _
  · rfl

/-- Witness for claim C1: two concrete documents whose roots differ by an
attribute swap and a sibling swap are matched as equivalent. -/
theorem matchXMLDocumentsLoosely_correct_witness :
    matchXMLDocumentsLoosely (fun s => s.length)
      (XMLDocument.mk (some (XMLNode.mk "r" "t"
        [XMLAttribute.mk "a" "1", XMLAttribute.mk "b" "2"]
        [XMLNode.mk "x" "" [] [], XMLNode.mk "y" "" [] []])))
      (XMLDocument.mk (some (XMLNode.mk "r" "t"
        [XMLAttribute.mk "b" "2", XMLAttribute.mk "a" "1"]
        [XMLNode.mk "y" "" [] [], XMLNode.mk "x" "" [] []]))) = true := by
  refine (matchXMLDocumentsLoosely_correct _ _ _).1 ?_
  show LooseIso
    (XMLNode.mk "r" "t" [XMLAttribute.mk "a" "1", XMLAttribute.mk "b" "2"]
      [XMLNode.mk "x" "" [] [], XMLNode.mk "y" "" [] []])
    (XMLNode.mk "r" "t" [XMLAttribute.mk "b" "2", XMLAttribute.mk "a" "1"]
      [XMLNode.mk "y" "" [] [], XMLNode.mk "x" "" [] []])
  rw [LooseIso]
  refine ⟨rfl, rfl, List.Perm.swap _ _ _,
    ⟨[XMLNode.mk "x" "" [] [], XMLNode.mk "y" "" [] []], List.Perm.swap _ _ _, ?_⟩⟩
  exact looseIsoChildren_of_forall _ (fun c _ => looseIso_refl c)

/-- Counterexample to claim C2 as stated: at the concrete empty input,
inserting an extra zero-valued key changes the result of
`combineKeysLoosely`, because the zero-argument call has no value at all. -/
theorem combineKeysLoosely_zero_insert_cex :
    combineKeysLoosely [0] ≠ combineKeysLoosely [] := by decide

/-- Claim C2 (amended): for every non-empty argument list,
`combineKeysLoosely` is the accumulated bitwise XOR of its inputs; the result
is invariant under any permutation of the inputs, and invariant under the
insertion of an extra zero-valued input into a non-empty argument list. -/
theorem combineKeysLoosely_xor_perm :
    (∀ (k : Key) (ks : List Key), combineKeysLoosely (k :: ks) = some (xorKey (k :: ks))) ∧
    (∀ l1 l2 : List Key, l1.Perm l2 → combineKeysLoosely l1 = combineKeysLoosely l2) ∧
    (∀ (k : Key) (ks : List Key),
      combineKeysLoosely (0 :: k :: ks) = combineKeysLoosely (k :: ks)) := by
  refine ⟨combineKeysLoosely_cons, ?_, ?_⟩
  · intro l1 l2 h
    cases l1 with
    | nil =>
        cases l2 with
        | nil => rfl
        | cons b bs => exact absurd h.length_eq (by simp)
    | cons a as =>
        cases l2 with
        | nil => exact absurd h.length_eq (by simp)
        | cons b bs =>
            rw [combineKeysLoosely_cons, combineKeysLoosely_cons, xorKey_perm h]
  · intro k ks
    rw [combineKeysLoosely_cons, combineKeysLoosely_cons, xorKey_cons, Nat.zero_xor]

/-- Witness for claim C2: permutation invariance applied to the concrete keys
3 and 5. -/
theorem combineKeysLoosely_xor_perm_witness :
    combineKeysLoosely [3, 5] = combineKeysLoosely [5, 3] :=
  combineKeysLoosely_xor_perm.2.1 [3, 5] [5, 3] (List.Perm.swap _ _ _)

/-- Claim C3: `combineKeysUniquely` starts from a zero accumulator and, for
each key in argument order, performs the update
`acc = acc XOR (key + 0x9e3779b9 + (acc << 6) + (acc >> 2))` in 64-bit
arithmetic, returning the final accumulator (the `std::hash` the code applies
to each integral key argument is the identity). -/
theorem combineKeysUniquely_eq_spec :
    ∀ keys : List Key, combineKeysUniquely keys = combineUniquelySpec keys :=
  fun _ => rfl

/-- Counterexample to claim C4 as stated: the zero-argument
`combineKeysLoosely` does not return the zero key — the empty unary fold over
XOR is ill-formed C++ and has no value. -/
theorem combineKeysLoosely_empty_cex : combineKeysLoosely [] ≠ some 0 := by decide

/-- Claim C4 (amended): `combineKeysUniquely` called with zero arguments
returns the zero key, while `combineKeysLoosely` called with zero arguments
has no value at all (the empty fold over XOR does not compile), so only calls
with at least one argument produce a key. -/
theorem combineKeys_empty : combineKeysUniquely [] = 0 ∧ combineKeysLoosely [] = none :=
  ⟨rfl, rfl⟩

/-- Claim C5: `computeAttributesKey` is unchanged under any permutation of the
node's attribute sequence, and a node with zero attributes has the identity
(zero) attributes key. -/
theorem computeAttributesKey_perm_invariant (hS : String → Key)
    (name childValue : String) (attrs attrs' : List XMLAttribute)
    (children : List XMLNode) (h : attrs.Perm attrs') :
    computeAttributesKey hS (XMLNode.mk name childValue attrs children) =
      computeAttributesKey hS (XMLNode.mk name childValue attrs' children) ∧
    computeAttributesKey hS (XMLNode.mk name childValue [] children) = 0 := by
  constructor
  · rw [computeAttributesKey_eq, computeAttributesKey_eq]
    exact xorKey_perm (List.Perm.map _ h)
  · rfl

/-- Witness for claim C5: swapping two concrete attributes leaves the
attributes key unchanged. -/
theorem computeAttributesKey_perm_invariant_witness :
    computeAttributesKey (fun s => s.length)
        (XMLNode.mk "r" "" [XMLAttribute.mk "a" "1", XMLAttribute.mk "b" "2"] []) =
      computeAttributesKey (fun s => s.length)
        (XMLNode.mk "r" "" [XMLAttribute.mk "b" "2", XMLAttribute.mk "a" "1"] []) :=
  (computeAttributesKey_perm_invariant (fun s => s.length) "r" "" _ _ []
    (List.Perm.swap _ _ _)).1

/-- Claim C6: for a node with children `[c1, c2]`, swapping the children to
`[c2, c1]` leaves the parent's node key unchanged. -/
theorem computeNodeKey_sibling_swap (hS : String → Key) (name childValue : String)
    (attrs : List XMLAttribute) (c1 c2 : XMLNode) :
    computeNodeKey hS (XMLNode.mk name childValue attrs [c1, c2]) =
      computeNodeKey hS (XMLNode.mk name childValue attrs [c2, c1]) :=
  computeNodeKey_children_xor_congr hS name childValue attrs [c1, c2] [c2, c1]
    (xorKey_perm (List.Perm.map _ (List.Perm.swap _ _ _)))

/-- Claim C7: `combineKeysUniquely` is order-sensitive: the distinct keys 0
and 1 combine to different results in the two argument orders. -/
theorem combineKeysUniquely_order_sensitive :
    ∃ k1 k2 : Key, k1 ≠ k2 ∧ combineKeysUniquely [k1, k2] ≠ combineKeysUniquely [k2, k1] :=
  ⟨0, 1, by decide, by decide⟩

/-- Claim C8: children with equal subtree keys cancel in the XOR fold: if a
node's children are, up to order, some list `cs'` plus an even number of
copies of a subtree `c`, its node key equals that of the node with children
`cs'`; in particular a node with exactly two identical children has the same
key as the childless node, and `matchXMLDocumentsLoosely` systematically
returns `true` on two documents differing this way. -/
theorem computeNodeKey_even_children_cancel (hS : String → Key)
    (name childValue : String) (attrs : List XMLAttribute)
    (c : XMLNode) (m : Nat) (cs cs' : List XMLNode)
    (h : cs.Perm (cs' ++ List.replicate (2 * m) c)) :
    computeNodeKey hS (XMLNode.mk name childValue attrs cs) =
      computeNodeKey hS (XMLNode.mk name childValue attrs cs') ∧
    computeNodeKey hS (XMLNode.mk name childValue attrs [c, c]) =
      computeNodeKey hS (XMLNode.mk name childValue attrs []) ∧
    matchXMLDocumentsLoosely hS
        (XMLDocument.mk (some (XMLNode.mk name childValue attrs [c, c])))
        (XMLDocument.mk (some (XMLNode.mk name childValue attrs []))) = true := by
  have hpair : computeNodeKey hS (XMLNode.mk name childValue attrs [c, c]) =
      computeNodeKey hS (XMLNode.mk name childValue attrs []) := by
    apply computeNodeKey_children_xor_congr
    rw [List.map_cons, List.map_cons, List.map_nil, xorKey_cons, xorKey_cons, xorKey_nil,
        Nat.xor_zero, Nat.xor_self]
  refine ⟨?_, hpair, ?_⟩
  · apply computeNodeKey_children_xor_congr
    rw [xorKey_perm (List.Perm.map _ h), List.map_append, xorKey_append,
        List.map_replicate, xorKey_replicate_two_mul, Nat.xor_zero]
  · rw [matchXMLDocumentsLoosely]
    show (computeNodeKey hS (XMLNode.mk name childValue attrs [c, c]) ==
      computeNodeKey hS (XMLNode.mk name childValue attrs [])) = true
    rw [hpair]
    exact beq_self_eq_true _

/-- Witness for claim C8: a concrete node with two identical children has the
same node key as the same node with no children. -/
theorem computeNodeKey_even_children_cancel_witness :
    computeNodeKey (fun s => s.length) (XMLNode.mk "r" "" [] [nullNode, nullNode]) =
      computeNodeKey (fun s => s.length) (XMLNode.mk "r" "" [] []) :=
  (computeNodeKey_even_children_cancel (fun s => s.length) "r" "" [] nullNode 1
    [nullNode, nullNode] [] (List.Perm.refl _)).1

/-- Claim C9: the one-argument loose combination is the identity, while the
one-argument unique combination is the re-hashed key (the identity hash for
integral keys) plus the magic constant, modulo the key width — and is
therefore never the key itself. -/
theorem combineKeys_single (k : Key) :
    combineKeysLoosely [k] = some k ∧
    combineKeysUniquely [k] = (hashKey k + 0x9e3779b9) % keyMod ∧
    combineKeysUniquely [k] ≠ k := by
  have h2 : combineKeysUniquely [k] = (hashKey k + 0x9e3779b9) % keyMod := by
    rw [combineKeysUniquely, List.foldl_cons, List.foldl_nil, combineKeysUniquelyImpl]
    have e1 : (0 : Nat) <<< 6 = 0 := rfl
    have e2 : (0 : Nat) >>> 2 = 0 := rfl
    rw [e1, e2, Nat.add_zero, Nat.add_zero, Nat.zero_xor]
  refine ⟨rfl, h2, ?_⟩
  rw [h2]
  have hstep : ∀ n : Nat, (n + 2654435769) % 18446744073709551616 ≠ n := fun n => by omega
  exact hstep k

/-- Claim C10: the matcher is total on documents without a document element:
the null root handle reads as a node with empty name, empty text, no
attributes and no children, so two documents that both lack a root element
always compare equal. -/
theorem matchXMLDocumentsLoosely_null_root (hS : String → Key) (docA docB : XMLDocument)
    (hA : docA.documentElement = none) (hB : docB.documentElement = none) :
    rootHandle docA = XMLNode.mk "" "" [] [] ∧
    matchXMLDocumentsLoosely hS docA docB = true := by
  constructor
  · rw [rootHandle, hA]
    rfl
  · rw [matchXMLDocumentsLoosely, rootHandle, rootHandle, hA, hB]
    exact beq_self_eq_true _

/-- Witness for claim C10: two concrete rootless documents compare equal. -/
theorem matchXMLDocumentsLoosely_null_root_witness :
    matchXMLDocumentsLoosely (fun s => s.length)
      (XMLDocument.mk none) (XMLDocument.mk none) = true :=
  (matchXMLDocumentsLoosely_null_root (fun s => s.length)
    (XMLDocument.mk none) (XMLDocument.mk none) rfl rfl).2
